import Mathlib

/-!
# Verification of the django-hook registry / dispatcher / aggregators

Shallow embedding of the `django_hook` and `django_hooks` packages.

* Python callables are opaque identifiers (`Func := Nat`); their runtime
  behaviour is supplied separately by an interpretation
  `impl : Func → List Val → Except String Val`, where `Except.error`
  models a raised exception.  The registry never consults `impl`, which
  mirrors the fact that the Python registry compares callables by
  object equality, never by behaviour.
* Python dicts are modelled as association lists with the CPython
  semantics of `d[k] = v`: an existing key keeps its position and gets
  the new value, a new key is appended (insertion order preserved).
* `django_hook/core.py`'s `HookSystem.invoke` (which accumulates into a
  dict keyed by app name) and `django_hooks/core.py`'s `HookSystem.invoke`
  (which accumulates into a list) are embedded separately as
  `invoke_dict` and `invoke_list`.
-/

namespace DjangoHook

/-- Python values occurring as hook results: `None`, booleans, ints,
strings, lists and string-keyed dicts.  -/
inductive Val where
  | pynone : Val
  | pybool (b : Bool) : Val
  | pyint (n : Int) : Val
  | pystr (s : String) : Val
  | pylist (xs : List Val) : Val
  | pydict (entries : List (String × Val)) : Val

/-- Python's `isinstance(x, list)` check, as used by the aggregators. -/
def isList : Val → Bool
  | .pylist _ => true
  | _ => false

/-- Python's `isinstance(x, dict)` check, as used by `aggregate_dict`. -/
def isDict : Val → Bool
  | .pydict _ => true
  | _ => false

/-- Python's `x is not None` identity check on the `None` singleton. -/
def isNotNone : Val → Bool
  | .pynone => false
  | _ => true

/-- Opaque identity of a Python callable (`hook_func`). -/
abbrev Func := Nat

/-- Python dict lookup `d.get(k)` on an insertion-ordered assoc list:
first (and, under the dict invariant, only) binding of the key. -/
def alook {α : Type} : List (String × α) → String → Option α
  | [], _ => Option.none
  | (k', v) :: rest, k => if k' = k then some v else alook rest k

/-- Python dict assignment `d[k] = v`: an existing key keeps its position
and is given the new value; a missing key is appended at the end. -/
def dset {α : Type} (d : List (String × α)) (k : String) (v : α) :
    List (String × α) :=
  if (alook d k).isSome then
    d.map (fun p => if p.1 = k then (k, v) else p)
  else
    d ++ [(k, v)]

/-- One registration list under a hook name: `(app_name, hook_func)`
pairs in registration order (`HookRegistry._hooks[hook_name]`). -/
abbrev Entries := List (String × Func)

/-- `HookRegistry._hooks`: dict from hook name to its registrations. -/
abbrev HookTable := List (String × Entries)

/-- `HookRegistry.register` (src/django_hook/registry.py):
ensure the key exists, scan for a duplicate `(app_name, hook_func)`
pair, return unchanged if found, otherwise append. -/
def register (tbl : HookTable) (hook_name : String) (hook_func : Func)
    (app_name : String) : HookTable :=
  let tbl1 := if (alook tbl hook_name).isSome then tbl else dset tbl hook_name []
  let entries := (alook tbl1 hook_name).getD []
  if (app_name, hook_func) ∈ entries then tbl1
  else dset tbl1 hook_name (entries ++ [(app_name, hook_func)])

/-- `HookRegistry.get_hooks`: `self._hooks.get(hook_name, [])`. -/
def get_hooks (tbl : HookTable) (hook_name : String) : Entries :=
  (alook tbl hook_name).getD []

/-- `HookRegistry.clear`: `self._hooks.clear()`. -/
def clear (_tbl : HookTable) : HookTable := []

/-- `HookRegistry.get_all_hooks`: `self._hooks.copy()` (same table value). -/
def get_all_hooks (tbl : HookTable) : HookTable := tbl

/-- In CPython, `self._hooks.get(hook_name, [])` returns the stored
list object itself when the key is present (the default `[]` is a fresh
list only when the key is absent).  This definition models the
observable effect, on the registry's table, of a caller appending an
element to the list returned by `get_hooks`: for a present key the
internal entry list itself grows; for an absent key the table is
untouched. -/
def append_to_returned (tbl : HookTable) (hook_name : String)
    (x : String × Func) : HookTable :=
  match alook tbl hook_name with
  | some entries => dset tbl hook_name (entries ++ [x])
  | Option.none => tbl

/-- Concrete interpretation used to evaluate the dispatchers: callable
`0` returns the string `"r1"`, every other callable returns `"r2"`;
no callable raises. -/
def implTwo : Func → List Val → Except String Val := fun f _ =>
  if f = 0 then .ok (.pystr "r1") else .ok (.pystr "r2")

/-- A failing aggregator: models an aggregator that raises on its
input (e.g. `sum` over non-numeric results). -/
def failAgg : List Val → Except String Val := fun _ => Except.error "boom"

/-- A table with one registration: hook `"h"`, owner `"appA"`,
callable `0`. -/
def tblOne : HookTable := register [] "h" 0 "appA"

/-- A table with two registrations under hook `"h"`, both owned by
`"appA"`, with distinct callables `0` and `1` (the registry keeps both,
since deduplication compares the callable too). -/
def tblSameOwner : HookTable := register (register [] "h" 0 "appA") "h" 1 "appA"

/-- One log record emitted by `logger.error(f"Error executing hook
{hook_name} in app {app_name}: {e}")`: the hook name, the owning app
name and the exception's message. -/
structure LogEntry where
  hook_name : String
  app_name : String
  msg : String
  deriving DecidableEq, Repr

/-- `django_hooks/core.py` `HookSystem.invoke` loop body over the
registration list: call each hook, append its result on success,
log (and skip) on exception, continue with the rest. -/
def runHooksList (impl : Func → List Val → Except String Val)
    (hook_name : String) (args : List Val) :
    Entries → List Val × List LogEntry
  | [] => ([], [])
  | (app_name, f) :: rest =>
    let tail := runHooksList impl hook_name args rest
    match impl f args with
    | .ok r => (r :: tail.1, tail.2)
    | .error e => (tail.1, ⟨hook_name, app_name, e⟩ :: tail.2)

/-- `django_hooks/core.py` `HookSystem.invoke`: results are collected
into a list, one per successful registration, in registration order;
exceptions are caught, logged and skipped. -/
def invoke_list (impl : Func → List Val → Except String Val)
    (tbl : HookTable) (hook_name : String) (args : List Val) :
    List Val × List LogEntry :=
  runHooksList impl hook_name args (get_hooks tbl hook_name)

/-- `django_hooks/core.py` `HookSystem.invoke_aggregate`:
`results = cls.invoke(...); return aggregator(results)`.  The
aggregator may itself raise (`Except.error`), which is not caught. -/
def invoke_aggregate_list (impl : Func → List Val → Except String Val)
    (tbl : HookTable) (hook_name : String)
    (aggregator : List Val → Except String Val) (args : List Val) :
    Except String Val × List LogEntry :=
  let results := invoke_list impl tbl hook_name args
  (aggregator results.1, results.2)

/-- `django_hook/core.py` `HookSystem.invoke` loop: results are
collected into a dict `results[app_name] = result` (so a later result
from the same app name overwrites the earlier one); exceptions are
caught, logged and skipped.  `acc` is the loop state
`(results, log so far)`. -/
def runHooksDict (impl : Func → List Val → Except String Val)
    (hook_name : String) (args : List Val)
    (acc : List (String × Val) × List LogEntry) :
    Entries → List (String × Val) × List LogEntry
  | [] => acc
  | reg :: rest =>
    match impl reg.2 args with
    | .ok r =>
      runHooksDict impl hook_name args (dset acc.1 reg.1 r, acc.2) rest
    | .error e =>
      runHooksDict impl hook_name args
        (acc.1, acc.2 ++ [⟨hook_name, reg.1, e⟩]) rest

/-- `django_hook/core.py` `HookSystem.invoke`: returns the dict of
`{app_name: result}` (started from the empty dict and empty log). -/
def invoke_dict (impl : Func → List Val → Except String Val)
    (tbl : HookTable) (hook_name : String) (args : List Val) :
    List (String × Val) × List LogEntry :=
  runHooksDict impl hook_name args ([], []) (get_hooks tbl hook_name)

/-- `django_hook/core.py` `HookSystem.invoke_aggregate`:
`results = cls.invoke(...); return aggregator(list(results.values()))`. -/
def invoke_aggregate_dict (impl : Func → List Val → Except String Val)
    (tbl : HookTable) (hook_name : String)
    (aggregator : List Val → Except String Val) (args : List Val) :
    Except String Val × List LogEntry :=
  let results := invoke_dict impl tbl hook_name args
  (aggregator (results.1.map Prod.snd), results.2)

/-- `aggregate_list` (`django_hook/utils.py`): the comprehension
`[item for sublist in results
      for item in (sublist if isinstance(sublist, list) else [sublist])]`. -/
def aggregate_list (results : List Val) : List Val :=
  (results.map (fun sublist =>
    if isList sublist then
      match sublist with | .pylist xs => xs | _ => []
    else [sublist])).flatten

/-- Python `aggregated.update(result)`: set each binding of `es` into
`d` in order, with dict-assignment semantics. -/
def dictUpdate (d : List (String × Val)) : List (String × Val) →
    List (String × Val)
  | [] => d
  | kv :: rest => dictUpdate (dset d kv.1 kv.2) rest

/-- The bindings a result contributes to `aggregate_dict`: a dict's
items in order, nothing for a non-dict. -/
def entriesOf : Val → List (String × Val)
  | .pydict es => es
  | _ => []

/-- `aggregate_dict` (`django_hook/utils.py`) loop: `update` the
accumulator with each result that is a dict, skip every other result. -/
def aggregate_dict_loop (aggregated : List (String × Val)) :
    List Val → List (String × Val)
  | [] => aggregated
  | result :: rest =>
    if isDict result then
      aggregate_dict_loop (dictUpdate aggregated (entriesOf result)) rest
    else
      aggregate_dict_loop aggregated rest

/-- `aggregate_dict` (`django_hook/utils.py`): start from the empty
dict; the returned value is the final mapping. -/
def aggregate_dict (results : List Val) : List (String × Val) :=
  aggregate_dict_loop [] results

/-- `aggregate_first_non_none` (`django_hook/utils.py`): return the
first result with `result is not None`, else `None`. -/
def aggregate_first_non_none : List Val → Val
  | [] => .pynone
  | result :: rest =>
    if isNotNone result then result else aggregate_first_non_none rest

/-- `aggregate_all` (`django_hook/utils.py`): identity. -/
def aggregate_all (results : List Val) : List Val := results

/-- All bindings carried by a result sequence, in sequence order.
Spec-side helper for stating the merge-map semantics. -/
def allEntries (results : List Val) : List (String × Val) :=
  (results.map entriesOf).flatten

/-- Spec-side reading of "later entries in sequence order overwrite
earlier entries on key collision": the value of the LAST binding of a
key in a flat binding list (first binding of the reversed list). -/
def lastLook {α : Type} (es : List (String × α)) (k : String) : Option α :=
  alook es.reverse k

/-- Spec-side reading of C10: the result of the LAST registration owned
by `o` whose call succeeds — the recursion prefers any success found
further right in registration order. -/
def lastSuccess (impl : Func → List Val → Except String Val)
    (args : List Val) (o : String) : Entries → Option Val
  | [] => Option.none
  | (a0, f0) :: rest =>
    match lastSuccess impl args o rest with
    | some v => some v
    | Option.none =>
      if a0 = o then (impl f0 args).toOption else Option.none

/-- The successful results of `o`'s registrations, in registration
order: `lastSuccess` is provably the last of these. -/
def ownerSuccesses (impl : Func → List Val → Except String Val)
    (args : List Val) (o : String) (regs : Entries) : List Val :=
  (regs.filter (fun r => r.1 == o)).filterMap
    (fun r => (impl r.2 args).toOption)

/-! ## Association-list lemmas -/

theorem alook_append_left {α : Type} {l1 l2 : List (String × α)} {k : String}
    {v : α} (h : alook l1 k = some v) : alook (l1 ++ l2) k = some v := by
  induction l1 with
  | nil => simp [alook] at h
  | cons p rest ih =>
    obtain ⟨k', w⟩ := p
    by_cases hk : k' = k
    · simpa [alook, hk] using h
    · simp only [alook, hk, if_neg, List.cons_append] at h ⊢
      exact ih h

theorem alook_append_right {α : Type} {l1 : List (String × α)}
    (l2 : List (String × α)) {k : String}
    (h : alook l1 k = Option.none) : alook (l1 ++ l2) k = alook l2 k := by
  induction l1 with
  | nil => simp
  | cons p rest ih =>
    obtain ⟨k', w⟩ := p
    by_cases hk : k' = k
    · simp [alook, hk] at h
    · simp only [alook, hk, if_neg, List.cons_append] at h ⊢
      exact ih h

theorem alook_map_set_ne {α : Type} {d : List (String × α)} {k k' : String}
    {v : α} (h : k' ≠ k) :
    alook (d.map (fun p => if p.1 = k then (k, v) else p)) k' = alook d k' := by
  induction d with
  | nil => rfl
  | cons p rest ih =>
    obtain ⟨k0, v0⟩ := p
    simp only [List.map_cons]
    by_cases h0 : k0 = k
    · subst h0
      rw [if_pos rfl]
      show (if k0 = k' then some v else _) = if k0 = k' then some v0 else _
      rw [if_neg (Ne.symm h), if_neg (Ne.symm h)]
      exact ih
    · rw [if_neg h0]
      show (if k0 = k' then some v0 else _) = if k0 = k' then some v0 else _
      by_cases h0' : k0 = k' <;> simp [h0', ih]

theorem alook_map_set_self {α : Type} {d : List (String × α)} {k : String}
    {v : α} (h : (alook d k).isSome) :
    alook (d.map (fun p => if p.1 = k then (k, v) else p)) k = some v := by
  induction d with
  | nil => simp [alook] at h
  | cons p rest ih =>
    obtain ⟨k0, v0⟩ := p
    simp only [List.map_cons]
    by_cases h0 : k0 = k
    · rw [if_pos h0]
      show (if k = k then some v else _) = some v
      rw [if_pos rfl]
    · rw [if_neg h0]
      show (if k0 = k then some v0 else _) = some v
      rw [if_neg h0]
      have h' : (alook rest k).isSome := by
        have : alook ((k0, v0) :: rest) k = alook rest k := by
          show (if k0 = k then some v0 else alook rest k) = alook rest k
          rw [if_neg h0]
        rwa [this] at h
      exact ih h'

/-- Python dict assignment then lookup: the assigned key reads back the
new value, every other key is untouched. -/
theorem alook_dset {α : Type} (d : List (String × α)) (k : String) (v : α)
    (k' : String) :
    alook (dset d k v) k' = if k' = k then some v else alook d k' := by
  by_cases hk : k' = k
  · subst hk
    unfold dset
    by_cases h : (alook d k').isSome
    · simp only [h, if_pos, if_pos rfl]
      exact alook_map_set_self h
    · simp only [h, if_false, Bool.false_eq_true, if_pos rfl]
      rw [alook_append_right _ (Option.not_isSome_iff_eq_none.mp h)]
      simp [alook]
  · unfold dset
    by_cases h : (alook d k).isSome
    · simp only [h, if_pos, if_neg hk]
      exact alook_map_set_ne hk
    · simp only [h, if_false, Bool.false_eq_true, if_neg hk]
      cases hd : alook d k' with
      | some w => exact alook_append_left hd
      | none =>
        rw [alook_append_right _ hd]
        show (if k = k' then some v else Option.none) = Option.none
        rw [if_neg (Ne.symm hk)]

/-- `dset` only rewrites values in place or appends a fresh key, so the
key sequence is preserved up to a possible new key at the end. -/
theorem keys_dset {α : Type} (d : List (String × α)) (k : String) (v : α) :
    (dset d k v).map Prod.fst =
      if (alook d k).isSome then d.map Prod.fst
      else d.map Prod.fst ++ [k] := by
  unfold dset
  by_cases h : (alook d k).isSome
  · simp only [h, if_pos, List.map_map]
    refine List.map_congr_left (fun p _ => ?_)
    by_cases hp : p.1 = k <;> simp [hp]
  · simp [h]

/-- A key has a binding exactly when it occurs in the key sequence. -/
theorem alook_isSome_iff {α : Type} (d : List (String × α)) (k : String) :
    (alook d k).isSome ↔ k ∈ d.map Prod.fst := by
  induction d with
  | nil => simp [alook]
  | cons p rest ih =>
    obtain ⟨k0, v0⟩ := p
    show (if k0 = k then some v0 else alook rest k).isSome ↔
      k ∈ k0 :: rest.map Prod.fst
    by_cases h0 : k0 = k
    · simp [h0]
    · rw [if_neg h0, List.mem_cons, ih]
      exact ⟨fun hm => Or.inr hm,
        fun hm => hm.resolve_left (fun h' => h0 h'.symm)⟩

/-! ## Registry lemmas -/

/-- Effect of one `register` call on the entries under its hook name:
a silent no-op if the exact `(app_name, hook_func)` pair is present,
otherwise an append at the end. -/
theorem get_hooks_register (tbl : HookTable) (hn : String) (f : Func)
    (a : String) :
    get_hooks (register tbl hn f a) hn =
      if (a, f) ∈ get_hooks tbl hn then get_hooks tbl hn
      else get_hooks tbl hn ++ [(a, f)] := by
  by_cases h : (alook tbl hn).isSome
  · obtain ⟨es, hes⟩ := Option.isSome_iff_exists.mp h
    simp only [register, get_hooks, hes, Option.isSome_some, if_true,
      Option.getD_some]
    by_cases hm : (a, f) ∈ es
    · simp [hm, hes]
    · have h2 : alook (dset tbl hn (es ++ [(a, f)])) hn =
          some (es ++ [(a, f)]) := by rw [alook_dset]; simp
      simp [hm, h2]
  · have hnone : alook tbl hn = Option.none := Option.not_isSome_iff_eq_none.mp h
    have h1 : alook (dset tbl hn []) hn = some ([] : Entries) := by
      rw [alook_dset]; simp
    have h2 : alook (dset (dset tbl hn []) hn [(a, f)]) hn =
        some [(a, f)] := by rw [alook_dset]; simp
    simp [register, get_hooks, hnone, h1, h2]

/-- Registering a pair that is already present leaves the table
untouched (the duplicate scan returns early). -/
theorem register_of_mem {tbl : HookTable} {hn : String} {f : Func}
    {a : String} (h : (a, f) ∈ get_hooks tbl hn) : register tbl hn f a = tbl := by
  have hsome : (alook tbl hn).isSome := by
    by_contra hc
    have : alook tbl hn = Option.none := Option.not_isSome_iff_eq_none.mp hc
    simp [get_hooks, this] at h
  obtain ⟨es, hes⟩ := Option.isSome_iff_exists.mp hsome
  have h' : (a, f) ∈ es := by simpa [get_hooks, hes] using h
  simp [register, hsome, hes, h']

/-- After `register`, the registered pair is among the hook's entries. -/
theorem mem_get_hooks_register (tbl : HookTable) (hn : String) (f : Func)
    (a : String) : (a, f) ∈ get_hooks (register tbl hn f a) hn := by
  rw [get_hooks_register]
  by_cases hm : (a, f) ∈ get_hooks tbl hn
  · simp [hm]
  · simp [hm]

/-- `register` does not disturb the entries of any other hook name. -/
theorem get_hooks_register_ne (tbl : HookTable) (hn hn' : String)
    (f : Func) (a : String) (h : hn' ≠ hn) :
    get_hooks (register tbl hn f a) hn' = get_hooks tbl hn' := by
  by_cases hs : (alook tbl hn).isSome
  · obtain ⟨es, hes⟩ := Option.isSome_iff_exists.mp hs
    simp only [register, get_hooks, hes, Option.isSome_some, if_true,
      Option.getD_some]
    by_cases hm : (a, f) ∈ es
    · simp [hm]
    · have h2 : alook (dset tbl hn (es ++ [(a, f)])) hn' = alook tbl hn' := by
        rw [alook_dset, if_neg h]
      simp [hm, h2]
  · have hnone : alook tbl hn = Option.none := Option.not_isSome_iff_eq_none.mp hs
    have h1 : alook (dset tbl hn []) hn = some ([] : Entries) := by
      rw [alook_dset]; simp
    have h2 : alook (dset (dset tbl hn []) hn [(a, f)]) hn' =
        alook tbl hn' := by
      rw [alook_dset, if_neg h, alook_dset, if_neg h]
    simp [register, get_hooks, hnone, h1, h2]

/-! ## Dispatcher lemmas -/

/-- The list-collecting `invoke` loop produces exactly the successful
results in order, and exactly one log entry per failing registration,
in order, carrying the hook name, the app name and the message. -/
theorem runHooksList_eq (impl : Func → List Val → Except String Val)
    (hn : String) (args : List Val) (regs : Entries) :
    runHooksList impl hn args regs =
      (regs.filterMap (fun r => (impl r.2 args).toOption),
       regs.filterMap (fun r =>
         match impl r.2 args with
         | .ok _ => Option.none
         | .error e => some ⟨hn, r.1, e⟩)) := by
  induction regs with
  | nil => rfl
  | cons r rest ih =>
    obtain ⟨a0, f0⟩ := r
    cases h0 : impl f0 args with
    | ok v =>
      simp [runHooksList, h0, ih, List.filterMap_cons, Except.toOption]
    | error e =>
      simp [runHooksList, h0, ih, List.filterMap_cons, Except.toOption]

/-- A success found further right in registration order wins. -/
theorem lastSuccess_append (impl : Func → List Val → Except String Val)
    (args : List Val) (o : String) (l1 l2 : Entries) :
    lastSuccess impl args o (l1 ++ l2) =
      match lastSuccess impl args o l2 with
      | some v => some v
      | Option.none => lastSuccess impl args o l1 := by
  induction l1 with
  | nil =>
    cases hls : lastSuccess impl args o l2 <;> simp [hls, lastSuccess]
  | cons r rest ih =>
    obtain ⟨a0, f0⟩ := r
    simp only [List.cons_append, lastSuccess]
    cases hls : lastSuccess impl args o l2 <;>
      cases hr : lastSuccess impl args o rest <;>
        simp [lastSuccess, ih, hls, hr]

/-- The dict-collecting `invoke` loop, looked up at an owner `o`, holds
the result of `o`'s last successful registration (falling back to
whatever the accumulator held). -/
theorem alook_runHooksDict (impl : Func → List Val → Except String Val)
    (hn : String) (args : List Val) (o : String) :
    ∀ (regs : Entries) (acc : List (String × Val) × List LogEntry),
      alook (runHooksDict impl hn args acc regs).1 o =
        match lastSuccess impl args o regs with
        | some v => some v
        | Option.none => alook acc.1 o := by
  intro regs
  induction regs with
  | nil => intro acc; rfl
  | cons r rest ih =>
    intro acc
    obtain ⟨a0, f0⟩ := r
    cases h0 : impl f0 args with
    | ok v =>
      have hstep : runHooksDict impl hn args acc ((a0, f0) :: rest) =
          runHooksDict impl hn args (dset acc.1 a0 v, acc.2) rest := by
        simp [runHooksDict, h0]
      rw [hstep, ih]
      cases hls : lastSuccess impl args o rest with
      | some w => simp [lastSuccess, hls]
      | none =>
        simp only [lastSuccess, hls, alook_dset]
        by_cases hao : a0 = o
        · subst hao; simp [h0, Except.toOption]
        · simp [hao, Ne.symm hao]
    | error e =>
      have hstep : runHooksDict impl hn args acc ((a0, f0) :: rest) =
          runHooksDict impl hn args
            (acc.1, acc.2 ++ [⟨hn, a0, e⟩]) rest := by
        simp [runHooksDict, h0]
      rw [hstep, ih]
      cases hls : lastSuccess impl args o rest with
      | some w => simp [lastSuccess, hls]
      | none =>
        simp only [lastSuccess, hls]
        by_cases hao : a0 = o
        · subst hao; simp [h0, Except.toOption]
        · simp [hao]

/-- Every key of the dict built by the `invoke` loop is either a key
the accumulator already had or the app name of some registration. -/
theorem keys_runHooksDict_subset (impl : Func → List Val → Except String Val)
    (hn : String) (args : List Val) :
    ∀ (regs : Entries) (acc : List (String × Val) × List LogEntry)
      (k : String),
      k ∈ (runHooksDict impl hn args acc regs).1.map Prod.fst →
      k ∈ acc.1.map Prod.fst ∨ k ∈ regs.map Prod.fst := by
  intro regs
  induction regs with
  | nil => intro acc k hk; exact Or.inl hk
  | cons r rest ih =>
    intro acc k hk
    obtain ⟨a0, f0⟩ := r
    cases h0 : impl f0 args with
    | ok v =>
      have hstep : runHooksDict impl hn args acc ((a0, f0) :: rest) =
          runHooksDict impl hn args (dset acc.1 a0 v, acc.2) rest := by
        simp [runHooksDict, h0]
      rw [hstep] at hk
      rcases ih (dset acc.1 a0 v, acc.2) k hk with h | h
      · rw [keys_dset] at h
        by_cases hs : (alook acc.1 a0).isSome
        · simp only [hs, if_pos] at h
          exact Or.inl h
        · simp only [hs, if_false, Bool.false_eq_true, List.mem_append,
            List.mem_singleton] at h
          rcases h with h | h
          · exact Or.inl h
          · subst h; exact Or.inr (by simp)
      · exact Or.inr (by simp [h])
    | error e =>
      have hstep : runHooksDict impl hn args acc ((a0, f0) :: rest) =
          runHooksDict impl hn args
            (acc.1, acc.2 ++ [⟨hn, a0, e⟩]) rest := by
        simp [runHooksDict, h0]
      rw [hstep] at hk
      rcases ih (acc.1, acc.2 ++ [⟨hn, a0, e⟩]) k hk with h | h
      · exact Or.inl h
      · exact Or.inr (by simp [h])

/-- The dict built by the `invoke` loop never holds two bindings for
one app name (dict keys stay distinct). -/
theorem keys_runHooksDict_nodup (impl : Func → List Val → Except String Val)
    (hn : String) (args : List Val) :
    ∀ (regs : Entries) (acc : List (String × Val) × List LogEntry),
      (acc.1.map Prod.fst).Nodup →
      ((runHooksDict impl hn args acc regs).1.map Prod.fst).Nodup := by
  intro regs
  induction regs with
  | nil => intro acc h; exact h
  | cons r rest ih =>
    intro acc h
    obtain ⟨a0, f0⟩ := r
    cases h0 : impl f0 args with
    | ok v =>
      have hstep : runHooksDict impl hn args acc ((a0, f0) :: rest) =
          runHooksDict impl hn args (dset acc.1 a0 v, acc.2) rest := by
        simp [runHooksDict, h0]
      rw [hstep]
      refine ih (dset acc.1 a0 v, acc.2) ?_
      show ((dset acc.1 a0 v).map Prod.fst).Nodup
      rw [keys_dset]
      by_cases hs : (alook acc.1 a0).isSome
      · simpa [hs] using h
      · have hnotin : a0 ∉ acc.1.map Prod.fst := fun hmem =>
          hs ((alook_isSome_iff acc.1 a0).mpr hmem)
        simp only [hs, if_false, Bool.false_eq_true]
        rw [List.nodup_append]
        refine ⟨h, List.nodup_singleton a0, fun x hx hx' => ?_⟩
        rw [List.mem_singleton] at hx'
        subst hx'
        exact hnotin hx
    | error e =>
      have hstep : runHooksDict impl hn args acc ((a0, f0) :: rest) =
          runHooksDict impl hn args
            (acc.1, acc.2 ++ [⟨hn, a0, e⟩]) rest := by
        simp [runHooksDict, h0]
      rw [hstep]
      exact ih (acc.1, acc.2 ++ [⟨hn, a0, e⟩]) h

/-- The dict-returning `invoke` yields at most one result per distinct
registered owner. -/
theorem invoke_dict_length_le (impl : Func → List Val → Except String Val)
    (tbl : HookTable) (hn : String) (args : List Val) :
    (invoke_dict impl tbl hn args).1.length ≤
      ((get_hooks tbl hn).map Prod.fst).dedup.length := by
  set R := (invoke_dict impl tbl hn args).1 with hR
  have hnodup : (R.map Prod.fst).Nodup :=
    keys_runHooksDict_nodup impl hn args (get_hooks tbl hn) ([], [])
      (by simp)
  have hsub : ∀ k ∈ R.map Prod.fst, k ∈ (get_hooks tbl hn).map Prod.fst := by
    intro k hk
    rcases keys_runHooksDict_subset impl hn args (get_hooks tbl hn)
        ([], []) k hk with h | h
    · simp at h
    · exact h
  have h1 : R.length = (R.map Prod.fst).length :=
    (List.length_map R Prod.fst).symm
  have h2 : (R.map Prod.fst).length = (R.map Prod.fst).toFinset.card :=
    (List.toFinset_card_of_nodup hnodup).symm
  have h3 : (R.map Prod.fst).toFinset ⊆
      ((get_hooks tbl hn).map Prod.fst).toFinset := by
    intro x hx
    rw [List.mem_toFinset] at hx ⊢
    exact hsub x hx
  rw [h1, h2]
  calc (R.map Prod.fst).toFinset.card
      ≤ ((get_hooks tbl hn).map Prod.fst).toFinset.card :=
        Finset.card_le_card h3
    _ = ((get_hooks tbl hn).map Prod.fst).dedup.length := by
        rw [List.card_toFinset]

/-! ## Aggregator lemmas -/

/-- Appending bindings on the right of an `update` chain: the freshest
binding of a key wins, earlier state only shows through if the key is
absent on the right. -/
theorem alook_dictUpdate (d : List (String × Val))
    (es : List (String × Val)) (k : String) :
    alook (dictUpdate d es) k =
      match lastLook es k with
      | some v => some v
      | Option.none => alook d k := by
  induction es generalizing d with
  | nil => simp [dictUpdate, lastLook, alook]
  | cons kv rest ih =>
    obtain ⟨k0, v0⟩ := kv
    simp only [dictUpdate]
    rw [ih]
    cases hl : lastLook rest k with
    | some w =>
      have hcons : lastLook ((k0, v0) :: rest) k = some w := by
        unfold lastLook at hl ⊢
        rw [List.reverse_cons]
        exact alook_append_left hl
      simp [hcons]
    | none =>
      have hcons : lastLook ((k0, v0) :: rest) k =
          if k0 = k then some v0 else Option.none := by
        unfold lastLook at hl ⊢
        rw [List.reverse_cons, alook_append_right _ hl]
        rfl
      rw [alook_dset]
      by_cases hk : k0 = k
      · subst hk; simp [hcons]
      · simp [hcons, hk, Ne.symm hk]

theorem dictUpdate_append (d : List (String × Val))
    (l1 l2 : List (String × Val)) :
    dictUpdate d (l1 ++ l2) = dictUpdate (dictUpdate d l1) l2 := by
  induction l1 generalizing d with
  | nil => rfl
  | cons kv rest ih =>
    simp only [List.cons_append, dictUpdate]
    exact ih (dset d kv.1 kv.2)

/-- A result that is not a dict contributes no bindings. -/
theorem entriesOf_eq_nil {r : Val} (h : ¬ isDict r = true) :
    entriesOf r = [] := by
  cases r with
  | pydict es => simp [isDict] at h
  | pynone => rfl
  | pybool b => rfl
  | pyint n => rfl
  | pystr s => rfl
  | pylist xs => rfl

theorem allEntries_append (l1 l2 : List Val) :
    allEntries (l1 ++ l2) = allEntries l1 ++ allEntries l2 := by
  simp [allEntries]

/-- The `aggregate_dict` loop is an `update` chain over all bindings
carried by the dict-shaped results, in sequence order. -/
theorem aggregate_dict_loop_eq :
    ∀ (rs : List Val) (d : List (String × Val)),
      aggregate_dict_loop d rs = dictUpdate d (allEntries rs) := by
  intro rs
  induction rs with
  | nil => intro d; rfl
  | cons r rest ih =>
    intro d
    by_cases hd : isDict r = true
    · simp only [aggregate_dict_loop, hd, if_pos]
      rw [ih]
      have : allEntries (r :: rest) = entriesOf r ++ allEntries rest := by
        simp [allEntries]
      rw [this, dictUpdate_append]
    · have he : entriesOf r = [] := entriesOf_eq_nil hd
      simp only [aggregate_dict_loop, hd, if_false, Bool.false_eq_true]
      rw [ih]
      have : allEntries (r :: rest) = allEntries rest := by
        simp [allEntries, he]
      rw [this]

/-- Merge-map lookup: the last binding of a key across the dict-shaped
results, in sequence order, wins. -/
theorem alook_aggregate_dict (rs : List Val) (k : String) :
    alook (aggregate_dict rs) k = lastLook (allEntries rs) k := by
  show alook (aggregate_dict_loop [] rs) k = lastLook (allEntries rs) k
  rw [aggregate_dict_loop_eq, alook_dictUpdate]
  cases h : lastLook (allEntries rs) k <;> simp [alook]

/-- `aggregate_first_non_none` is "first element passing the
`is not None` test, else `None`". -/
theorem aggregate_first_non_none_eq (rs : List Val) :
    aggregate_first_non_none rs = (rs.find? isNotNone).getD Val.pynone := by
  induction rs with
  | nil => rfl
  | cons r rest ih =>
    by_cases h : isNotNone r = true
    · simp [aggregate_first_non_none, h, List.find?_cons_of_pos, ih]
    · rw [List.find?_cons_of_neg _ (by simpa using h)]
      simp only [aggregate_first_non_none, h, if_false, Bool.false_eq_true]
      exact ih

theorem aggregate_list_append (xs ys : List Val) :
    aggregate_list (xs ++ ys) =
      aggregate_list xs ++ aggregate_list ys := by
  simp [aggregate_list]

/-! ## Claim theorems -/

/-- C1.  The claim says `invoke` returns an ordered sequence with, for
each registration in registration order, its callable's return value
when the call succeeds.  `django_hooks`' list-returning `invoke`
satisfies this (second conjunct), and the repository's own tests assert
exactly this shape against `django_hook.core.HookSystem.invoke` — but
`django_hook`'s `invoke` collects into a dict keyed by app name, so at
a hook with two succeeding registrations owned by the same app only the
later result survives: with registrations `("appA", 0)` and
`("appA", 1)` both succeeding, the dict-returning `invoke` yields one
value, `"r2"`, not the two-element sequence `["r1", "r2"]`. -/
theorem invoke_dict_drops_same_owner_result :
    (get_hooks tblSameOwner "h").length = 2
    ∧ (invoke_list implTwo tblSameOwner "h" []).1 =
        [Val.pystr "r1", Val.pystr "r2"]
    ∧ (invoke_dict implTwo tblSameOwner "h" []).1.map Prod.snd =
        [Val.pystr "r2"]
    ∧ (invoke_dict implTwo tblSameOwner "h" []).1.length = 1 :=
  ⟨rfl, rfl, rfl, rfl⟩

/-- C2.  Registering the same `(ownerId, callable)` pair twice under
one hook name is a silent no-op (the second call returns the table
unchanged), leaves exactly one entry for the pair, and deduplication
compares owner and callable identity: a pair differing in either
component is appended as well, in registration order, no matter how
its callable behaves. -/
theorem register_dedup_idempotent (tbl : HookTable) (hn : String)
    (f : Func) (a : String) (f2 : Func) (a2 : String) :
    register (register tbl hn f a) hn f a = register tbl hn f a
    ∧ ((a, f) ∉ get_hooks tbl hn →
        get_hooks (register (register tbl hn f a) hn f a) hn =
          get_hooks tbl hn ++ [(a, f)])
    ∧ ((a, f) ∉ get_hooks tbl hn →
        (get_hooks (register (register tbl hn f a) hn f a) hn).count (a, f)
          = 1)
    ∧ ((a, f) ∉ get_hooks tbl hn → (a2, f2) ∉ get_hooks tbl hn →
        (a2, f2) ≠ (a, f) →
        get_hooks (register (register tbl hn f a) hn f2 a2) hn =
          get_hooks tbl hn ++ [(a, f), (a2, f2)]) := by
  have hid : register (register tbl hn f a) hn f a = register tbl hn f a :=
    register_of_mem (mem_get_hooks_register tbl hn f a)
  refine ⟨hid, fun hm => ?_, fun hm => ?_, fun hm1 hm2 hne => ?_⟩
  · rw [hid, get_hooks_register, if_neg hm]
  · rw [hid, get_hooks_register, if_neg hm, List.count_append,
      List.count_eq_zero.mpr hm]
    simp
  · have h1 : get_hooks (register tbl hn f a) hn =
        get_hooks tbl hn ++ [(a, f)] := by
      rw [get_hooks_register, if_neg hm1]
    have hm2' : (a2, f2) ∉ get_hooks (register tbl hn f a) hn := by
      rw [h1]
      intro hmem
      rcases List.mem_append.mp hmem with h | h
      · exact hm2 h
      · exact hne (List.mem_singleton.mp h)
    rw [get_hooks_register, if_neg hm2', h1, List.append_assoc]
    rfl

/-- Witness for C2 at a concrete table: registering `("A", 0)` twice
leaves one entry; registering `("A", 0)` then `("B", 1)` keeps both in
order. -/
theorem register_dedup_idempotent_witness :
    get_hooks (register (register [] "h" 0 "A") "h" 0 "A") "h" = [("A", 0)]
    ∧ get_hooks (register (register [] "h" 0 "A") "h" 1 "B") "h" =
        [("A", 0), ("B", 1)] := by
  have h := register_dedup_idempotent [] "h" 0 "A" 1 "B"
  constructor
  · have h2 := h.2.1 (by decide)
    simpa using h2
  · have h4 := h.2.2.2 (by decide) (by decide) (by decide)
    simpa using h4

/-- C3.  The list-returning `invoke` is total (an implementation's
exception is never propagated): its result sequence is exactly the
successful results in registration order — a failing registration
contributes nothing and the remaining ones still run — and its log is
exactly one entry per failing registration, in order, carrying the
hook name, the owning app name and the error message. -/
theorem invoke_list_error_isolation
    (impl : Func → List Val → Except String Val) (tbl : HookTable)
    (hn : String) (args : List Val) :
    (invoke_list impl tbl hn args).1 =
      (get_hooks tbl hn).filterMap (fun r => (impl r.2 args).toOption)
    ∧ (invoke_list impl tbl hn args).2 =
      (get_hooks tbl hn).filterMap (fun r =>
        match impl r.2 args with
        | .ok _ => Option.none
        | .error e => some ⟨hn, r.1, e⟩) := by
  have h := runHooksList_eq impl hn args (get_hooks tbl hn)
  exact ⟨congrArg Prod.fst h, congrArg Prod.snd h⟩

/-- C4.  `invoke_aggregate` is exactly the aggregator applied to the
sequence `invoke` returns (the dict variant passes the dict's values in
insertion order); no failure isolation is added at this layer, so an
aggregator failure is the returned outcome, surfaced to the caller. -/
theorem invoke_aggregate_eq
    (impl : Func → List Val → Except String Val) (tbl : HookTable)
    (hn : String) (agg : List Val → Except String Val) (args : List Val) :
    (invoke_aggregate_list impl tbl hn agg args).1 =
      agg (invoke_list impl tbl hn args).1
    ∧ (invoke_aggregate_dict impl tbl hn agg args).1 =
      agg ((invoke_dict impl tbl hn args).1.map Prod.snd)
    ∧ ∀ e, agg (invoke_list impl tbl hn args).1 = Except.error e →
        (invoke_aggregate_list impl tbl hn agg args).1 = Except.error e :=
  ⟨rfl, rfl, fun _ h => h⟩

/-- Witness for C4: a raising aggregator's failure is the outcome of
`invoke_aggregate` at a concrete table. -/
theorem invoke_aggregate_eq_witness :
    (invoke_aggregate_list implTwo tblOne "h" failAgg []).1 =
      Except.error "boom" :=
  (invoke_aggregate_eq implTwo tblOne "h" failAgg []).2.2 "boom" rfl

/-- C5 counterexample.  The claim says mutating the sequence returned
by `get_hooks` leaves the registry's table unchanged.  It does not:
`get_hooks` returns `self._hooks.get(hook_name, [])`, the internal
list object itself, so appending `("junk", 9)` to the sequence returned
for the registered name `"h"` changes the registry — the junk entry is
visible in a later `get_hooks`. -/
theorem get_hooks_alias_counterexample :
    append_to_returned tblOne "h" ("junk", 9) ≠ tblOne
    ∧ get_hooks (append_to_returned tblOne "h" ("junk", 9)) "h" =
        [("appA", 0), ("junk", 9)] :=
  ⟨by decide, rfl⟩

/-- C5 amended.  `get_hooks` returns a mutable alias of the internal
entry list: for a hook name present in the table, appending to the
returned sequence appends to the registry's own entry for that name;
only for an absent name is the returned default `[]` fresh, leaving the
table unchanged. -/
theorem get_hooks_returns_alias (tbl : HookTable) (hn : String)
    (x : String × Func) :
    ((alook tbl hn).isSome →
      get_hooks (append_to_returned tbl hn x) hn = get_hooks tbl hn ++ [x])
    ∧ (alook tbl hn = Option.none → append_to_returned tbl hn x = tbl) := by
  constructor
  · intro hs
    obtain ⟨es, hes⟩ := Option.isSome_iff_exists.mp hs
    simp only [append_to_returned, hes, get_hooks, Option.getD_some]
    rw [alook_dset]
    simp
  · intro hnone
    simp [append_to_returned, hnone]

/-- Witness for C5's amended claim at a concrete table: the appended
element shows up in the registry for the present name `"h"`, and the
table is untouched for the absent name `"g"`. -/
theorem get_hooks_returns_alias_witness :
    get_hooks (append_to_returned tblOne "h" ("junk", 9)) "h" =
      get_hooks tblOne "h" ++ [("junk", 9)]
    ∧ append_to_returned tblOne "g" ("junk", 9) = tblOne :=
  ⟨(get_hooks_returns_alias tblOne "h" ("junk", 9)).1 (by decide),
   (get_hooks_returns_alias tblOne "g" ("junk", 9)).2 (by decide)⟩

/-- C6.  A hook name with no registrations — in particular any name
after `clear()` — yields the empty sequence from `get_hooks` and an
empty result (and empty log) from both `invoke` variants; all these
operations are total, so no error is ever raised. -/
theorem unknown_hook_empty (impl : Func → List Val → Except String Val)
    (tbl : HookTable) (hn : String) (args : List Val) :
    (alook tbl hn = Option.none → get_hooks tbl hn = [])
    ∧ (get_hooks tbl hn = [] →
        invoke_list impl tbl hn args = ([], [])
        ∧ invoke_dict impl tbl hn args = ([], []))
    ∧ get_hooks (clear tbl) hn = []
    ∧ invoke_list impl (clear tbl) hn args = ([], [])
    ∧ invoke_dict impl (clear tbl) hn args = ([], []) := by
  refine ⟨fun hnone => by simp [get_hooks, hnone], fun hempty => ?_,
    rfl, rfl, rfl⟩
  constructor
  · show runHooksList impl hn args (get_hooks tbl hn) = ([], [])
    rw [hempty]
    rfl
  · show runHooksDict impl hn args ([], []) (get_hooks tbl hn) = ([], [])
    rw [hempty]
    rfl

/-- Witness for C6 at concrete inputs: the unknown name
`"nonexistent_hook"` in the empty table, and `clear` of a table that
did hold a registration for `"h"`. -/
theorem unknown_hook_empty_witness :
    get_hooks ([] : HookTable) "nonexistent_hook" = []
    ∧ invoke_list implTwo [] "nonexistent_hook" [] = ([], [])
    ∧ invoke_dict implTwo [] "nonexistent_hook" [] = ([], [])
    ∧ get_hooks (clear tblOne) "h" = [] := by
  have h := unknown_hook_empty implTwo [] "nonexistent_hook" []
  have he := h.2.1 (h.1 rfl)
  exact ⟨h.1 rfl, he.1, he.2,
    (unknown_hook_empty implTwo tblOne "h" []).2.2.1⟩

/-- C7.  The merge-map aggregator: the empty input yields the empty
mapping; looking up any key in the merged mapping gives the LAST
binding of that key carried by the dict-shaped results in sequence
order (later results overwrite earlier ones on collision); and a
non-dict result anywhere in the sequence is skipped without affecting
the outcome. -/
theorem aggregate_dict_merge (rs : List Val) (k : String)
    (xs ys : List Val) (v : Val) :
    aggregate_dict [] = []
    ∧ alook (aggregate_dict rs) k = lastLook (allEntries rs) k
    ∧ (isDict v = false →
        aggregate_dict (xs ++ v :: ys) = aggregate_dict (xs ++ ys)) := by
  refine ⟨rfl, alook_aggregate_dict rs k, fun hv => ?_⟩
  show aggregate_dict_loop [] (xs ++ v :: ys) =
    aggregate_dict_loop [] (xs ++ ys)
  rw [aggregate_dict_loop_eq, aggregate_dict_loop_eq]
  have he : entriesOf v = [] := entriesOf_eq_nil (by simp [hv])
  have h1 : allEntries (xs ++ v :: ys) = allEntries (xs ++ ys) := by
    rw [allEntries_append, allEntries_append]
    have : allEntries (v :: ys) = allEntries ys := by
      simp [allEntries, he]
    rw [this]
  rw [h1]

/-- Witness for C7 at the spec's own example: merging
`[{a:1}, {b:2}, {a:3, c:4}]` reads back `a = 3` (later wins), and an
interleaved non-dict `5` changes nothing. -/
theorem aggregate_dict_merge_witness :
    alook (aggregate_dict
        [Val.pydict [("a", Val.pyint 1)], Val.pydict [("b", Val.pyint 2)],
         Val.pydict [("a", Val.pyint 3), ("c", Val.pyint 4)]]) "a" =
      some (Val.pyint 3)
    ∧ aggregate_dict
        [Val.pydict [("a", Val.pyint 1)], Val.pyint 5,
         Val.pydict [("b", Val.pyint 2)]] =
      aggregate_dict
        [Val.pydict [("a", Val.pyint 1)], Val.pydict [("b", Val.pyint 2)]] := by
  constructor
  · rw [(aggregate_dict_merge
      [Val.pydict [("a", Val.pyint 1)], Val.pydict [("b", Val.pyint 2)],
       Val.pydict [("a", Val.pyint 3), ("c", Val.pyint 4)]] "a" [] []
      Val.pynone).2.1]
    rfl
  · exact (aggregate_dict_merge [] "a"
      [Val.pydict [("a", Val.pyint 1)]] [Val.pydict [("b", Val.pyint 2)]]
      (Val.pyint 5)).2.2 rfl

/-- C8.  The first-non-empty aggregator returns the first result in
sequence order passing Python's `is not None` test — so a
present-but-falsy value such as `False` or `""` is returned — and the
absent sentinel `None` when no result qualifies or the input is
empty. -/
theorem aggregate_first_non_none_spec (rs : List Val) :
    aggregate_first_non_none rs = (rs.find? isNotNone).getD Val.pynone
    ∧ aggregate_first_non_none
        [Val.pynone, Val.pybool false, Val.pystr "value"] = Val.pybool false
    ∧ aggregate_first_non_none [Val.pynone, Val.pystr ""] = Val.pystr ""
    ∧ aggregate_first_non_none [Val.pynone, Val.pynone] = Val.pynone
    ∧ aggregate_first_non_none [] = Val.pynone :=
  ⟨aggregate_first_non_none_eq rs, rfl, rfl, rfl, rfl⟩

/-- C9.  The flatten aggregator: empty input yields empty output, it
distributes over concatenation (so overall order is preserved), a
result that is itself a list is spliced in as its elements, and any
other result is appended as a single element. -/
theorem aggregate_list_flatten (xs ys l : List Val) (v : Val) :
    aggregate_list [] = []
    ∧ aggregate_list (xs ++ ys) = aggregate_list xs ++ aggregate_list ys
    ∧ aggregate_list [Val.pylist l] = l
    ∧ (isList v = false → aggregate_list [v] = [v]) := by
  refine ⟨rfl, aggregate_list_append xs ys, by simp [aggregate_list, isList],
    fun hv => ?_⟩
  simp [aggregate_list, hv]

/-- Witness for C9: the non-list result `5` stays a single element, so
the spec's example `[[1,2],[3,4],5]` flattens to `[1,2,3,4,5]`. -/
theorem aggregate_list_flatten_witness :
    aggregate_list [Val.pyint 5] = [Val.pyint 5]
    ∧ aggregate_list
        [Val.pylist [Val.pyint 1, Val.pyint 2],
         Val.pylist [Val.pyint 3, Val.pyint 4], Val.pyint 5] =
      [Val.pyint 1, Val.pyint 2, Val.pyint 3, Val.pyint 4, Val.pyint 5] :=
  ⟨(aggregate_list_flatten [] [] [] (Val.pyint 5)).2.2.2 rfl, rfl⟩

/-- C10.  `django_hook`'s `invoke` keys its results by owner: looking
the returned mapping up at an owner gives exactly the result of that
owner's LAST succeeding registration (earlier same-owner results are
overwritten; see `lastSuccess` and `lastSuccess_append`); the mapping
holds at most one binding per owner (its keys are distinct), so its
size never exceeds the number of distinct registered owners; and
`invoke_aggregate` hands the aggregator exactly the mapping's values —
hence at most one value per owner. -/
theorem invoke_dict_keyed_by_owner
    (impl : Func → List Val → Except String Val) (tbl : HookTable)
    (hn : String) (args : List Val) (o : String)
    (agg : List Val → Except String Val) :
    alook (invoke_dict impl tbl hn args).1 o =
      lastSuccess impl args o (get_hooks tbl hn)
    ∧ ((invoke_dict impl tbl hn args).1.map Prod.fst).Nodup
    ∧ (invoke_dict impl tbl hn args).1.length ≤
        ((get_hooks tbl hn).map Prod.fst).dedup.length
    ∧ (invoke_aggregate_dict impl tbl hn agg args).1 =
        agg ((invoke_dict impl tbl hn args).1.map Prod.snd) := by
  refine ⟨?_, keys_runHooksDict_nodup impl hn args (get_hooks tbl hn)
      ([], []) (by simp),
    invoke_dict_length_le impl tbl hn args, rfl⟩
  show alook (runHooksDict impl hn args ([], []) (get_hooks tbl hn)).1 o = _
  rw [alook_runHooksDict]
  cases h : lastSuccess impl args o (get_hooks tbl hn) <;> simp [alook]

end DjangoHook
